import Mathlib

/-
Shallow embedding of the mcgrof/migration-stats plotting pipeline
(src/plot_migration_stats.py): the stats-file line parser, the dataset
aligner (truncate_all), the derived percentage metrics, the per-chart
ranking policy, and the ultra-zoom axis-range heuristic.

Machine integers are modelled as Int / Nat (Python integers are unbounded,
so no wrap-around is needed).  Python floats are modelled as rationals:
every quantity the claims speak about is a ratio of integers scaled by
100, which is exact in both representations for the properties at stake
(ordering, bounds, zero cases).  Fallible code (Python exceptions) is
modelled with Option / Except.
-/

namespace MigrationStats

/-- Python whitespace as recognised by str.strip and the regex class
backslash-s: space, tab, newline, carriage return, vertical tab, form feed. -/
def pySpace (c : Char) : Bool :=
  c = ' ' || c = '\t' || c = '\n' || c = '\r' || c = Char.ofNat 11 || c = Char.ofNat 12

/-- Python str.strip(): drop leading and trailing whitespace. -/
def pyStrip (s : List Char) : List Char :=
  ((s.dropWhile pySpace).reverse.dropWhile pySpace).reverse

/-- Helper for splitWs: accumulate the current word (reversed) while
scanning the character list. -/
def splitWsAux : List Char → List Char → List (List Char)
  | [], acc => if acc.isEmpty then [] else [acc.reverse]
  | c :: cs, acc =>
    if pySpace c then
      if acc.isEmpty then splitWsAux cs [] else acc.reverse :: splitWsAux cs []
    else splitWsAux cs (c :: acc)

/-- Python re.split of a line on runs of whitespace.  The source applies it
only to a stripped, non-blank line, on which it coincides with splitting the
line into its whitespace-separated words. -/
def splitWs (s : List Char) : List (List Char) := splitWsAux s []

/-- Numeric value of a string of decimal digits (what Python int returns on
a digit string). -/
def natFromDigits (ds : List Char) : Nat :=
  ds.foldl (fun a c => a * 10 + (c.toNat - ('0').toNat)) 0

/-- Python int(token) on a whitespace-free token: an optional sign followed
by one or more decimal digits; anything else raises ValueError (modelled as
none).  (Underscore digit grouping, also accepted by Python, is not used by
the collector's output and is not modelled.) -/
def pyInt : List Char → Option Int
  | [] => none
  | '-' :: rest =>
    if !rest.isEmpty && rest.all Char.isDigit then some (-(natFromDigits rest : Int)) else none
  | '+' :: rest =>
    if !rest.isEmpty && rest.all Char.isDigit then some ((natFromDigits rest : Int)) else none
  | s => if s.all Char.isDigit then some ((natFromDigits s : Int)) else none

/-- Consume an exact literal from the front of the input; the regex engine
does the same for literal pattern text under re.match. -/
def dropLit : List Char → List Char → Option (List Char)
  | s, [] => some s
  | [], _ :: _ => none
  | c :: cs, p :: ps => if c = p then dropLit cs ps else none

/-- Consume one-or-more whitespace characters (the regex piece backslash-s+). -/
def spaces1 : List Char → Option (List Char)
  | [] => none
  | c :: cs => if pySpace c then some (cs.dropWhile pySpace) else none

/-- Consume one-or-more decimal digits (the regex piece for a captured
digit group), returning the digits and the rest. -/
def digits1 (s : List Char) : Option (List Char × List Char) :=
  match s.takeWhile Char.isDigit with
  | [] => none
  | d => some (d, s.dropWhile Char.isDigit)

/-- The summary-line pattern of parse_stats_file, applied with re.match
(so it must match a prefix of the line):
literal label, colon, whitespace, digits, "% success", whitespace,
"(", digits, "/", digits, ")".  In this pattern every greedy digit or
whitespace group is followed by a literal outside its character class, so
the deterministic maximal-munch scan below is equivalent to the regex. -/
def matchNorefs (line : List Char) : Option (Nat × Nat) := do
  let r0 ← dropLit line ("buffer_migrate_folio_norefs:").toList
  let r1 ← spaces1 r0
  let (_, r2) ← digits1 r1
  let r3 ← dropLit r2 ("% success").toList
  let r4 ← spaces1 r3
  let r5 ← dropLit r4 ("(").toList
  let (d2, r6) ← digits1 r5
  let r7 ← dropLit r6 ("/").toList
  let (d3, r8) ← digits1 r7
  let _ ← dropLit r8 (")").toList
  pure (natFromDigits d2, natFromDigits d3)

/-- A parsed stats file: insertion-ordered association list from metric
name to its series, modelling the Python dict built by parse_stats_file. -/
abbrev Stats := List (String × List Int)

/-- stats.setdefault(key, []).append(v): append v to the series of key,
creating the key at the end of the insertion order if absent. -/
def appendS (st : Stats) (k : String) (v : Int) : Stats :=
  match st with
  | [] => [(k, [v])]
  | (k', vs) :: rest =>
    if k' = k then (k', vs ++ [v]) :: rest else (k', vs) :: appendS rest k v

/-- One iteration of the parse_stats_file loop body on one raw line:
strip; skip blank lines and section headers; try the norefs summary
pattern; skip the "Success ratios:" header; otherwise split on whitespace
and, for exactly two tokens, append int(value) under the key (a
non-integer value raises, modelled as Except.error). -/
def parseLine (st : Stats) (rawLine : String) : Except String Stats :=
  let line := pyStrip rawLine.toList
  if line.isEmpty then .ok st
  else if line.head? = some '[' then .ok st
  else
    match matchNorefs line with
    | some (succ, tot) =>
      .ok (appendS (appendS st "norefs_success_summary" (succ : Int)) "norefs_total_summary" (tot : Int))
    | none =>
      if (dropLit line ("Success ratios:").toList).isSome then .ok st
      else
        match splitWs line with
        | [k, v] =>
          match pyInt v with
          | some n => .ok (appendS st (String.mk (pyStrip k)) n)
          | none => .error "ValueError: invalid literal for int"
        | _ => .ok st

/-- parse_stats_file on a file given as its list of lines. -/
def parseStatsLines (ls : List String) : Except String Stats :=
  ls.foldlM parseLine []

/-- The mapping from DUT name to parsed stats file (stats_raw in main). -/
abbrev StatsMap := List (String × Stats)

/-- All series lengths over all metrics of all datasets, the generator
inside the min() call of truncate_all. -/
def allSeriesLens (sd : StatsMap) : List Nat :=
  (sd.map (fun p => p.2.map (fun q => q.2.length))).flatten

/-- truncate_all: min_len is Python min over all series lengths (min of an
empty generator raises ValueError, modelled as none); every series is
truncated to its first min_len entries. -/
def truncate_all (sd : StatsMap) : Option (StatsMap × Nat) :=
  match allSeriesLens sd with
  | [] => none
  | x :: xs =>
    let m := xs.foldl min x
    some (sd.map (fun p => (p.1, p.2.map (fun q => (q.1, q.2.take m)))), m)

/-- stats.get(key, [0] * min_len): the series of a metric, or an all-zero
series of the aligned length when the metric is absent. -/
def sGet (st : Stats) (k : String) : Option (List Int) :=
  (st.find? (fun p => p.1 == k)).map (fun p => p.2)

/-- The chart code's defaulted metric access. -/
def getSeries (st : Stats) (k : String) (minLen : Nat) : List Int :=
  (sGet st k).getD (List.replicate minLen 0)

/-- The valid-success percentage series of plot_valid: pointwise
s / (s + f) * 100, and 0 where the denominator s + f is zero. -/
def validPct (succ fails : List Int) : List ℚ :=
  (succ.zip fails).map (fun p =>
    if p.1 + p.2 = 0 then 0 else ((p.1 : ℚ) / ((p.1 : ℚ) + (p.2 : ℚ))) * 100)

/-- The norefs success-rate series of plot_success_rate: pointwise
s / t * 100 if t > 0 else 0. -/
def norefsRate (succ total : List Int) : List ℚ :=
  (succ.zip total).map (fun p => if 0 < p.2 then ((p.1 : ℚ) / (p.2 : ℚ)) * 100 else 0)

/-- series[-1] if series else 0: the final value a chart ranks a dataset by. -/
def finalVal (s : List ℚ) : ℚ := s.getLast?.getD 0

/-- final_ratios = (dut, series[-1] if series else 0) for every dataset,
in dict insertion order. -/
def finalsOf (m : List (String × List ℚ)) : List (String × ℚ) :=
  m.map (fun p => (p.1, finalVal p.2))

/-- One step of Python sorted(..., key=value): stable insertion of x in
front of the first element whose final value is not below x's. -/
def insertFin (x : String × ℚ) : List (String × ℚ) → List (String × ℚ)
  | [] => [x]
  | y :: ys => if x.2 ≤ y.2 then x :: y :: ys else y :: insertFin x ys

/-- sorted(final.items(), key=value): a stable sort by ascending final
value (insertion sort, which is stable like Python's sort). -/
def sortFinals : List (String × ℚ) → List (String × ℚ)
  | [] => []
  | x :: xs => insertFin x (sortFinals xs)

/-- The ranking step shared by plot_valid_ratio / plot_valid_success:
sort datasets by final value ascending; with no data return early (a
no-op, modelled as none); otherwise worst is the first sorted name and
best the last. -/
def rankValidChart (pctByDut : List (String × List ℚ)) : Option (String × String) :=
  match (sortFinals (finalsOf pctByDut)).head?, (sortFinals (finalsOf pctByDut)).getLast? with
  | some w, some b => some (w.1, b.1)
  | _, _ => none

/-- final_scores of plot_success_rate, line 338: series[-1] per dataset
with NO emptiness guard, so an empty series raises IndexError (none). -/
def finalScores : List (String × List ℚ) → Option (List (String × ℚ))
  | [] => some []
  | p :: rest =>
    match p.2.getLast? with
    | none => none
    | some v => (finalScores rest).map (fun fs => (p.1, v) :: fs)

/-- The ranking step of plot_success_rate, lines 337-340: unlike the three
valid-chart functions there is no "if not sorted_duts: return" guard, so
an empty mapping reaches sorted_duts[0][0] and raises IndexError
(modelled as Except.error). -/
def rankSuccessRate (pctByDut : List (String × List ℚ)) : Except String (String × String) :=
  match finalScores pctByDut with
  | none => .error "IndexError: list index out of range"
  | some fs =>
    match (sortFinals fs).head?, (sortFinals fs).getLast? with
    | some w, some b => .ok (w.1, b.1)
    | _, _ => .error "IndexError: list index out of range"

/-- Metric polarity of a chart: plot_valid_ratio / plot_valid_success /
plot_success_rate rank with higher-is-better, plot_valid_fails with
lower-is-better. -/
inductive Polarity
  | higherIsBetter
  | lowerIsBetter

/-- The best dataset name of a chart: the last of the ascending sort under
higher-is-better (plot_valid_success line 205), the first under
lower-is-better (plot_valid_fails line 258). -/
def bestOf (p : Polarity) (fs : List (String × ℚ)) : Option String :=
  match p with
  | .higherIsBetter => ((sortFinals fs).getLast?).map (fun q => q.1)
  | .lowerIsBetter => ((sortFinals fs).head?).map (fun q => q.1)

/-- The worst dataset name of a chart: first of the ascending sort under
higher-is-better, last under lower-is-better. -/
def worstOf (p : Polarity) (fs : List (String × ℚ)) : Option String :=
  match p with
  | .higherIsBetter => ((sortFinals fs).head?).map (fun q => q.1)
  | .lowerIsBetter => ((sortFinals fs).getLast?).map (fun q => q.1)

/-- sorted[1:-1]: the middle datasets, in ascending final order; the
source builds this list identically for both polarities. -/
def middleOf (fs : List (String × ℚ)) : List (String × ℚ) :=
  ((sortFinals fs).drop 1).dropLast

/-- The best-to-worst ranking order a chart's polarity induces on the
ascending sort: reading it backwards under higher-is-better, forwards
under lower-is-better. -/
def rankOrder (p : Polarity) (fs : List (String × ℚ)) : List (String × ℚ) :=
  match p with
  | .higherIsBetter => (sortFinals fs).reverse
  | .lowerIsBetter => sortFinals fs

/-- The ultra-zoom y-axis heuristic of plot_valid_ratio, lines 121-137:
from the strictly positive final ratios, default to (95, 100.5) when none
exist; ultra-zoom when their spread is below half a percentage point;
otherwise open up to one point below the minimum, floored at 95.  The
source's locals min_final, max_final and value_range are inlined; Python
min and max of a non-empty list are left folds over its tail. -/
def zoomRange (finals : List ℚ) : ℚ × ℚ :=
  match finals.filter (fun v => 0 < v) with
  | [] => (95, 100.5)
  | x :: xs =>
    if xs.foldl max x - xs.foldl min x < 0.5 then
      (max 99 (xs.foldl min x - (xs.foldl max x - xs.foldl min x) * 0.5),
       min 100 (xs.foldl max x + (xs.foldl max x - xs.foldl min x) * 0.5))
    else
      (max 95 (xs.foldl min x - 1), 100.5)

/-- Modelled from the spec, section 4.5 (Zoom Heuristic), word for word:
considering only strictly positive finals, if none exist the range is
(95.0, 100.5); otherwise with spread = max - min, if spread < 0.5 the
range is (max(99.0, min - spread/2), min(100.0, max + spread/2)), else
(max(95.0, min - 1.0), 100.5).  Stated separately from zoomRange so the
source heuristic can be compared against the spec's wording. -/
def zoomRangeSpec (finals : List ℚ) : ℚ × ℚ :=
  match finals.filter (fun v => 0 < v) with
  | [] => (95, 100.5)
  | x :: xs =>
    if xs.foldl max x - xs.foldl min x < 0.5 then
      (max 99 (xs.foldl min x - (xs.foldl max x - xs.foldl min x) / 2),
       min 100 (xs.foldl max x + (xs.foldl max x - xs.foldl min x) / 2))
    else
      (max 95 (xs.foldl min x - 1), 100.5)

/-! Generic list facts used below: Python min / max of a non-empty list is
a left fold over its tail, and the insertion sort modelling Python sorted
is a permutation that is pairwise ordered by the sort key. -/

/-- The folded minimum is a lower bound of the whole list. -/
theorem foldl_min_le_mem {α : Type} [LinearOrder α] (xs : List α) (x : α) :
    ∀ y ∈ x :: xs, xs.foldl min x ≤ y := by
  induction xs generalizing x with
  | nil =>
    intro y hy
    simp only [List.mem_singleton] at hy
    simp [hy]
  | cons a t ih =>
    intro y hy
    simp only [List.foldl_cons]
    rcases List.mem_cons.1 hy with rfl | hy'
    · exact le_trans (ih (min y a) (min y a) (List.mem_cons_self _ _)) (min_le_left _ _)
    rcases List.mem_cons.1 hy' with rfl | hy''
    · exact le_trans (ih (min x y) (min x y) (List.mem_cons_self _ _)) (min_le_right _ _)
    · exact ih (min x a) y (List.mem_cons_of_mem _ hy'')

/-- A lower bound of every element bounds the folded minimum. -/
theorem le_foldl_min {α : Type} [LinearOrder α] (c : α) (xs : List α) (x : α)
    (hx : c ≤ x) (hxs : ∀ y ∈ xs, c ≤ y) : c ≤ xs.foldl min x := by
  induction xs generalizing x with
  | nil => simpa using hx
  | cons a t ih =>
    simp only [List.foldl_cons]
    exact ih (min x a) (le_min hx (hxs a (List.mem_cons_self _ _)))
      (fun y hy => hxs y (List.mem_cons_of_mem _ hy))

/-- The folded minimum is attained by some list element. -/
theorem foldl_min_mem {α : Type} [LinearOrder α] (xs : List α) (x : α) :
    xs.foldl min x ∈ x :: xs := by
  induction xs generalizing x with
  | nil => simp
  | cons a t ih =>
    simp only [List.foldl_cons]
    have h := ih (min x a)
    rcases List.mem_cons.1 h with h' | h'
    · rcases min_choice x a with hmin | hmin
      · rw [h', hmin]; exact List.mem_cons_self _ _
      · rw [h', hmin]; exact List.mem_cons_of_mem _ (List.mem_cons_self _ _)
    · exact List.mem_cons_of_mem _ (List.mem_cons_of_mem _ h')

/-- The folded maximum is an upper bound of the whole list. -/
theorem mem_le_foldl_max {α : Type} [LinearOrder α] (xs : List α) (x : α) :
    ∀ y ∈ x :: xs, y ≤ xs.foldl max x := by
  induction xs generalizing x with
  | nil =>
    intro y hy
    simp only [List.mem_singleton] at hy
    simp [hy]
  | cons a t ih =>
    intro y hy
    simp only [List.foldl_cons]
    rcases List.mem_cons.1 hy with rfl | hy'
    · exact le_trans (le_max_left _ _) (ih (max y a) (max y a) (List.mem_cons_self _ _))
    rcases List.mem_cons.1 hy' with rfl | hy''
    · exact le_trans (le_max_right _ _) (ih (max x y) (max x y) (List.mem_cons_self _ _))
    · exact ih (max x a) y (List.mem_cons_of_mem _ hy'')

/-- An upper bound of every element bounds the folded maximum. -/
theorem foldl_max_le {α : Type} [LinearOrder α] (c : α) (xs : List α) (x : α)
    (hx : x ≤ c) (hxs : ∀ y ∈ xs, y ≤ c) : xs.foldl max x ≤ c := by
  induction xs generalizing x with
  | nil => simpa using hx
  | cons a t ih =>
    simp only [List.foldl_cons]
    exact ih (max x a) (max_le hx (hxs a (List.mem_cons_self _ _)))
      (fun y hy => hxs y (List.mem_cons_of_mem _ hy))

/-- A list holding two distinct members has at least two entries. -/
theorem two_le_length_of_mem_ne {α : Type} {l : List α} {a b : α}
    (ha : a ∈ l) (hb : b ∈ l) (hab : a ≠ b) : 2 ≤ l.length := by
  match l with
  | [] => exact absurd ha (List.not_mem_nil a)
  | [x] =>
    rw [List.mem_singleton] at ha hb
    exact absurd (ha.trans hb.symm) hab
  | x :: y :: t => simp only [List.length_cons]; omega

/-- Index-wise description of zip on indices present in both lists. -/
theorem zip_getElem?_some {α β : Type} (l1 : List α) (l2 : List β) (i : Nat) (a : α) (b : β)
    (h1 : l1[i]? = some a) (h2 : l2[i]? = some b) : (l1.zip l2)[i]? = some (a, b) := by
  induction l1 generalizing l2 i with
  | nil => simp at h1
  | cons x t ih =>
    cases l2 with
    | nil => simp at h2
    | cons y t2 =>
      cases i with
      | zero =>
        simp only [List.getElem?_cons_zero, Option.some.injEq] at h1 h2
        simp [List.zip_cons_cons, h1, h2]
      | succ n =>
        simp only [List.getElem?_cons_succ] at h1 h2
        simpa [List.zip_cons_cons] using ih t2 n h1 h2

/-- dropWhile is the identity when the head already fails the test. -/
theorem dropWhile_head_false {α : Type} {p : α → Bool} (l : List α)
    (h : ∀ c, l.head? = some c → p c = false) : l.dropWhile p = l := by
  cases l with
  | nil => rfl
  | cons c t => rw [List.dropWhile_cons, h c rfl]; simp

/-- str.strip is the identity on a string whose first and last characters
are not whitespace. -/
theorem pyStrip_eq_self (l : List Char)
    (hh : ∀ c, l.head? = some c → pySpace c = false)
    (hl : ∀ c, l.getLast? = some c → pySpace c = false) : pyStrip l = l := by
  unfold pyStrip
  rw [dropWhile_head_false l hh,
    dropWhile_head_false l.reverse (fun c hc => hl c (by rwa [List.head?_reverse] at hc)),
    List.reverse_reverse]

/-- Decimal digits are not Python whitespace. -/
theorem pySpace_eq_false_of_isDigit (c : Char) (h : c.isDigit = true) : pySpace c = false := by
  by_cases h1 : c = ' '
  · subst h1; exact absurd h (by decide)
  by_cases h2 : c = '\t'
  · subst h2; exact absurd h (by decide)
  by_cases h3 : c = '\n'
  · subst h3; exact absurd h (by decide)
  by_cases h4 : c = '\r'
  · subst h4; exact absurd h (by decide)
  by_cases h5 : c = Char.ofNat 11
  · subst h5; exact absurd h (by decide)
  by_cases h6 : c = Char.ofNat 12
  · subst h6; exact absurd h (by decide)
  simp [pySpace, h1, h2, h3, h4, h5, h6]

/-- takeWhile / dropWhile split an all-true block followed by a failing head. -/
theorem takeWhile_append_of_all {α : Type} {p : α → Bool} (d r : List α)
    (hd : d.all p = true) (hr : ∀ c, r.head? = some c → p c = false) :
    (d ++ r).takeWhile p = d ∧ (d ++ r).dropWhile p = r := by
  induction d with
  | nil =>
    refine ⟨?_, by simpa using dropWhile_head_false r hr⟩
    cases r with
    | nil => rfl
    | cons c t => simp [List.takeWhile_cons, hr c rfl]
  | cons a t ih =>
    simp only [List.all_cons, Bool.and_eq_true] at hd
    have h := ih hd.2
    simp [List.takeWhile_cons, List.dropWhile_cons, hd.1, h.1, h.2]

/-- digits1 consumes exactly a leading non-empty all-digit block when the
next character is not a digit. -/
theorem digits1_append (d r : List Char) (hne : d ≠ []) (hall : d.all Char.isDigit = true)
    (hr : ∀ c, r.head? = some c → c.isDigit = false) :
    digits1 (d ++ r) = some (d, r) := by
  have h := takeWhile_append_of_all d r hall hr
  unfold digits1
  rw [h.1, h.2]
  cases d with
  | nil => exact absurd rfl hne
  | cons a t => rfl

/-- dropLit consumes exactly the literal it expects. -/
theorem dropLit_append (p r : List Char) : dropLit (p ++ r) p = some r := by
  induction p with
  | nil => simp [dropLit]
  | cons c cs ih => simp [dropLit, ih]

/-- head? of an append whose left part is non-empty. -/
theorem head?_append_left {α : Type} (l l' : List α) (h : l ≠ []) :
    (l ++ l').head? = l.head? := by
  cases l with
  | nil => exact absurd rfl h
  | cons a t => rfl

/-- getLast? of an append whose right part is non-empty. -/
theorem getLast?_append_right' {α : Type} (l l' : List α) (h : l' ≠ []) :
    (l ++ l').getLast? = l'.getLast? := by
  rw [List.getLast?_append, List.getLast?_eq_getLast l' h]
  rfl

/-- getLast? skips a cons when the tail is non-empty. -/
theorem getLast?_cons_right {α : Type} (a : α) (l : List α) (h : l ≠ []) :
    (a :: l).getLast? = l.getLast? := by
  cases l with
  | nil => exact absurd rfl h
  | cons b t => exact List.getLast?_cons_cons

/-- Stable insertion produces a permutation of the element consed on. -/
theorem insertFin_perm (x : String × ℚ) (l : List (String × ℚ)) :
    (insertFin x l).Perm (x :: l) := by
  induction l with
  | nil => exact List.Perm.refl _
  | cons y ys ih =>
    unfold insertFin
    by_cases h : x.2 ≤ y.2
    · simp [h]
    · simp only [h, if_false]
      exact (ih.cons y).trans (List.Perm.swap x y ys)

/-- The insertion sort permutes its input. -/
theorem sortFinals_perm (l : List (String × ℚ)) : (sortFinals l).Perm l := by
  induction l with
  | nil => exact List.Perm.refl _
  | cons x xs ih => exact (insertFin_perm x (sortFinals xs)).trans (ih.cons x)

/-- Stable insertion preserves pairwise order by final value. -/
theorem insertFin_pairwise (x : String × ℚ) (l : List (String × ℚ))
    (h : l.Pairwise (fun a b => a.2 ≤ b.2)) :
    (insertFin x l).Pairwise (fun a b => a.2 ≤ b.2) := by
  induction l with
  | nil => simp [insertFin]
  | cons y ys ih =>
    rcases List.pairwise_cons.1 h with ⟨hy, hys⟩
    unfold insertFin
    by_cases hle : x.2 ≤ y.2
    · simp only [hle, if_true]
      refine List.pairwise_cons.2 ⟨?_, h⟩
      intro z hz
      rcases List.mem_cons.1 hz with rfl | hz'
      · exact hle
      · exact le_trans hle (hy z hz')
    · simp only [hle, if_false]
      refine List.pairwise_cons.2 ⟨?_, ih hys⟩
      intro z hz
      have hz' := (insertFin_perm x ys).mem_iff.1 hz
      rcases List.mem_cons.1 hz' with rfl | hz''
      · exact le_of_not_le hle
      · exact hy z hz''

/-- The sorted finals list is pairwise ordered by final value ascending. -/
theorem sortFinals_pairwise (l : List (String × ℚ)) :
    (sortFinals l).Pairwise (fun a b => a.2 ≤ b.2) := by
  induction l with
  | nil => simp [sortFinals]
  | cons x xs ih => exact insertFin_pairwise x _ ih

/-- In a pairwise-ordered list the head value bounds every member below. -/
theorem pairwise_head?_le (l : List (String × ℚ))
    (h : l.Pairwise (fun a b => a.2 ≤ b.2)) (w : String × ℚ) (hw : l.head? = some w) :
    ∀ x ∈ l, w.2 ≤ x.2 := by
  cases l with
  | nil => simp at hw
  | cons a t =>
    simp only [List.head?_cons, Option.some.injEq] at hw
    subst hw
    intro x hx
    rcases List.mem_cons.1 hx with rfl | hx'
    · exact le_refl _
    · exact (List.pairwise_cons.1 h).1 x hx'

/-- In a pairwise-ordered list the last value bounds every member above. -/
theorem pairwise_le_getLast? :
    ∀ (l : List (String × ℚ)), l.Pairwise (fun a b => a.2 ≤ b.2) →
      ∀ (b : String × ℚ), l.getLast? = some b → ∀ x ∈ l, x.2 ≤ b.2
  | [], _, b, hb => by simp at hb
  | [a], _, b, hb => by
    simp only [List.getLast?_singleton, Option.some.injEq] at hb
    subst hb
    intro x hx
    rw [List.mem_singleton] at hx
    simp [hx]
  | a :: c :: t, h, b, hb => by
    rw [List.getLast?_cons_cons] at hb
    rcases List.pairwise_cons.1 h with ⟨ha, hpt⟩
    intro x hx
    rcases List.mem_cons.1 hx with rfl | hx'
    · refine ha b ?_
      have hne : (c :: t) ≠ [] := by simp
      rw [List.getLast?_eq_getLast _ hne] at hb
      injection hb with hb'
      rw [← hb']
      exact List.getLast_mem hne
    · exact pairwise_le_getLast? (c :: t) hpt b hb x hx'

/-- finalsOf keeps the dataset names. -/
theorem finalsOf_map_fst (m : List (String × List ℚ)) :
    (finalsOf m).map Prod.fst = m.map Prod.fst := by
  simp [finalsOf]

/-- finalsOf keeps the number of datasets. -/
theorem finalsOf_length (m : List (String × List ℚ)) :
    (finalsOf m).length = m.length := by
  simp [finalsOf]

/-- A sorted finals list of at least two distinctly-named datasets has a
first and a last entry carrying different names. -/
theorem sortFinals_ends (fs : List (String × ℚ)) (hnd : (fs.map Prod.fst).Nodup)
    (hlen : 2 ≤ fs.length) :
    ∃ w b, (sortFinals fs).head? = some w ∧ (sortFinals fs).getLast? = some b ∧ w.1 ≠ b.1 := by
  have hperm := sortFinals_perm fs
  have hlen' : 2 ≤ (sortFinals fs).length := by rw [hperm.length_eq]; exact hlen
  cases s0 : sortFinals fs with
  | nil => rw [s0] at hlen'; simp at hlen'
  | cons a s1 =>
    cases s1 with
    | nil => rw [s0] at hlen'; simp at hlen'
    | cons c t =>
      have hndS : ((a :: c :: t).map Prod.fst).Nodup := by
        rw [← s0]
        exact ((hperm.map Prod.fst).nodup_iff).2 hnd
      have hne : (c :: t) ≠ [] := by simp
      refine ⟨a, (c :: t).getLast hne, rfl, ?_, ?_⟩
      · rw [List.getLast?_cons_cons, List.getLast?_eq_getLast _ hne]
      · have hndS' : a.1 ∉ (c :: t).map Prod.fst ∧ ((c :: t).map Prod.fst).Nodup := by
          rw [List.map_cons] at hndS
          exact List.nodup_cons.1 hndS
        intro heq
        refine hndS'.1 ?_
        rw [heq]
        exact List.mem_map_of_mem Prod.fst (List.getLast_mem hne)

/-- rankValidChart reduced at a sorted list with known ends. -/
theorem rankValidChart_eq (m : List (String × List ℚ)) (w b : String × ℚ)
    (hw : (sortFinals (finalsOf m)).head? = some w)
    (hb : (sortFinals (finalsOf m)).getLast? = some b) :
    rankValidChart m = some (w.1, b.1) := by
  unfold rankValidChart
  rw [hw, hb]

/-- final_scores succeeds exactly as the guarded finals when every series
is non-empty. -/
theorem finalScores_eq_of_nonempty (m : List (String × List ℚ)) (h : ∀ p ∈ m, p.2 ≠ []) :
    finalScores m = some (finalsOf m) := by
  induction m with
  | nil => rfl
  | cons p rest ih =>
    have hp : p.2 ≠ [] := h p (List.mem_cons_self _ _)
    unfold finalScores
    rw [List.getLast?_eq_getLast _ hp, ih (fun q hq => h q (List.mem_cons_of_mem _ hq))]
    simp [finalsOf, finalVal, List.getLast?_eq_getLast _ hp]

/-- allSeriesLens is empty exactly when every dataset has no series. -/
theorem allSeriesLens_eq_nil_iff (sd : StatsMap) :
    allSeriesLens sd = [] ↔ ∀ p ∈ sd, p.2 = [] := by
  unfold allSeriesLens
  rw [List.flatten_eq_nil_iff]
  constructor
  · intro h p hp
    exact List.map_eq_nil_iff.1 (h (p.2.map (fun q => q.2.length)) (List.mem_map_of_mem _ hp))
  · intro h l hl
    rcases List.mem_map.1 hl with ⟨p, hp, rfl⟩
    rw [h p hp]
    rfl

/-- Membership in allSeriesLens is existence of a series of that length. -/
theorem mem_allSeriesLens (sd : StatsMap) (n : Nat) :
    n ∈ allSeriesLens sd ↔ ∃ p ∈ sd, ∃ q ∈ p.2, q.2.length = n := by
  unfold allSeriesLens
  rw [List.mem_flatten]
  constructor
  · rintro ⟨l, hl, hn⟩
    rcases List.mem_map.1 hl with ⟨p, hp, rfl⟩
    rcases List.mem_map.1 hn with ⟨q, hq, hq'⟩
    exact ⟨p, hp, q, hq, hq'⟩
  · rintro ⟨p, hp, q, hq, rfl⟩
    exact ⟨p.2.map (fun q => q.2.length), List.mem_map_of_mem _ hp, List.mem_map_of_mem _ hq⟩

/-- C1: per-chart ranking by final value.  For the three valid charts the
final value of a dataset is the last element of its series when non-empty
and 0 when empty; for any mapping with distinct names and at least two
distinct final values the ranking yields exactly one worst and one best
dataset and they differ, and a single dataset is simultaneously both.
For the success-rate chart the same totality holds provided every series
is non-empty (its final value is series[-1] with no emptiness guard; see
the counterexample for the empty-series case). -/
theorem final_value_ranking_totality (m : List (String × List ℚ))
    (hnd : (m.map Prod.fst).Nodup)
    (hdist : ∃ p ∈ m, ∃ q ∈ m, finalVal p.2 ≠ finalVal q.2) :
    (∀ (s : List ℚ) (h : s ≠ []), finalVal s = s.getLast h) ∧
    finalVal [] = 0 ∧
    (∃ w b, rankValidChart m = some (w, b) ∧ w ≠ b) ∧
    (∀ (n : String) (s : List ℚ), rankValidChart [(n, s)] = some (n, n)) ∧
    ((∀ p ∈ m, p.2 ≠ []) → ∃ w b, rankSuccessRate m = Except.ok (w, b) ∧ w ≠ b) := by
  obtain ⟨p, hp, q, hq, hpq⟩ := hdist
  have hpq' : p ≠ q := fun h => hpq (by rw [h])
  have hlen : 2 ≤ m.length := two_le_length_of_mem_ne hp hq hpq'
  have hndF : ((finalsOf m).map Prod.fst).Nodup := by rw [finalsOf_map_fst]; exact hnd
  have hlenF : 2 ≤ (finalsOf m).length := by rw [finalsOf_length]; exact hlen
  obtain ⟨w, b, hw, hb, hwb⟩ := sortFinals_ends (finalsOf m) hndF hlenF
  refine ⟨?_, rfl, ⟨w.1, b.1, rankValidChart_eq m w b hw hb, hwb⟩, ?_, ?_⟩
  · intro s h
    simp [finalVal, List.getLast?_eq_getLast s h]
  · intro n s
    simp [rankValidChart, finalsOf, sortFinals, insertFin]
  · intro hall
    refine ⟨w.1, b.1, ?_, hwb⟩
    simp only [rankSuccessRate, finalScores_eq_of_nonempty m hall, hw, hb]

/-- C1 witness: two datasets with final values 1 and 2 are ranked with
worst "a" and best "b", and the two differ. -/
theorem final_value_ranking_totality_witness :
    rankValidChart [("a", [(1 : ℚ)]), ("b", [(2 : ℚ)])] = some ("a", "b") ∧
    ("a" : String) ≠ "b" := by
  obtain ⟨w, b, hw, hwb⟩ :=
    (final_value_ranking_totality [("a", [(1 : ℚ)]), ("b", [(2 : ℚ)])]
      (by decide) (by decide)).2.2.1
  have he : rankValidChart [("a", [(1 : ℚ)]), ("b", [(2 : ℚ)])] = some ("a", "b") := rfl
  rw [he] at hw
  injection hw with hw'
  injection hw' with hw1 hw2
  subst hw1
  subst hw2
  exact ⟨he, hwb⟩

/-- C1 counterexample: in plot_success_rate the final value used for
ranking a dataset with an empty series is not 0 — line 338 evaluates
series[-1] unguarded and raises IndexError. -/
theorem final_value_empty_series_counterexample :
    finalScores [("a", ([] : List ℚ))] = none ∧
    rankSuccessRate [("a", ([] : List ℚ))] =
      Except.error "IndexError: list index out of range" :=
  ⟨rfl, rfl⟩

/-- C3: truncate_all fails exactly when no series exists at all; on
success every returned series has exactly the returned length min_len,
min_len is a lower bound of every original series length, and min_len is
attained by some original series. -/
theorem truncate_all_alignment (sd : StatsMap) :
    (truncate_all sd = none ↔ ∀ p ∈ sd, p.2 = []) ∧
    (∀ res m, truncate_all sd = some (res, m) →
      (∀ p ∈ res, ∀ q ∈ p.2, q.2.length = m) ∧
      (∀ p ∈ sd, ∀ q ∈ p.2, m ≤ q.2.length) ∧
      (∃ p ∈ sd, ∃ q ∈ p.2, q.2.length = m)) := by
  cases h : allSeriesLens sd with
  | nil =>
    constructor
    · constructor
      · intro _
        exact (allSeriesLens_eq_nil_iff sd).1 h
      · intro _
        unfold truncate_all
        rw [h]
    · intro res m hsome
      unfold truncate_all at hsome
      rw [h] at hsome
      exact absurd hsome (by simp)
  | cons x xs =>
    have hmem : ∀ n ∈ allSeriesLens sd, xs.foldl min x ≤ n := by
      rw [h]
      exact foldl_min_le_mem xs x
    constructor
    · constructor
      · intro hnone
        unfold truncate_all at hnone
        rw [h] at hnone
        exact absurd hnone (by simp)
      · intro hall
        have h0 := (allSeriesLens_eq_nil_iff sd).2 hall
        rw [h] at h0
        exact absurd h0 (by simp)
    · intro res m hsome
      unfold truncate_all at hsome
      rw [h] at hsome
      simp only [Option.some.injEq, Prod.mk.injEq] at hsome
      obtain ⟨hres, hm⟩ := hsome
      subst hm
      refine ⟨?_, ?_, ?_⟩
      · intro p hp q hq
        rw [← hres] at hp
        rcases List.mem_map.1 hp with ⟨p0, hp0, rfl⟩
        rcases List.mem_map.1 hq with ⟨q0, hq0, rfl⟩
        have hle : xs.foldl min x ≤ q0.2.length :=
          hmem _ ((mem_allSeriesLens sd _).2 ⟨p0, hp0, q0, hq0, rfl⟩)
        simp only [List.length_take]
        exact inf_eq_left.mpr hle
      · intro p hp q hq
        exact hmem _ ((mem_allSeriesLens sd _).2 ⟨p, hp, q, hq, rfl⟩)
      · refine (mem_allSeriesLens sd _).1 ?_
        rw [h]
        exact foldl_min_mem xs x

/-- C3 witness: series of lengths 3, 2 and 1 align to min_len = 1, every
truncated series has one entry, and min_len bounds the original lengths. -/
theorem truncate_all_alignment_witness :
    truncate_all [("a", [("s", [(1 : Int), 2, 3]), ("f", [(1 : Int), 2])]),
        ("b", [("s", [(5 : Int)])])] =
      some ([("a", [("s", [(1 : Int)]), ("f", [(1 : Int)])]),
        ("b", [("s", [(5 : Int)])])], 1) ∧
    1 ≤ [(1 : Int), 2, 3].length := by
  refine ⟨rfl, ?_⟩
  exact ((truncate_all_alignment [("a", [("s", [(1 : Int), 2, 3]), ("f", [(1 : Int), 2])]),
      ("b", [("s", [(5 : Int)])])]).2
    [("a", [("s", [(1 : Int)]), ("f", [(1 : Int)])]), ("b", [("s", [(5 : Int)])])] 1
    rfl).2.1
    ("a", [("s", [(1 : Int), 2, 3]), ("f", [(1 : Int), 2])]) (List.mem_cons_self _ _)
    ("s", [(1 : Int), 2, 3]) (List.mem_cons_self _ _)

/-- C8: on an empty dataset mapping the valid-chart rankers return early
with nothing to render (a normal return, not an error), but
plot_success_rate has no emptiness guard: it indexes sorted_duts[0][0]
and raises IndexError, contradicting the claim for that chart category. -/
theorem empty_mapping_not_always_noop :
    rankValidChart [] = none ∧
    bestOf .higherIsBetter [] = none ∧
    bestOf .lowerIsBetter [] = none ∧
    rankSuccessRate [] = Except.error "IndexError: list index out of range" :=
  ⟨rfl, rfl, rfl, rfl⟩

/-- C9: a metric absent from a dataset is read as an all-zero series of
exactly the aligned length; the access is total, never an error. -/
theorem missing_metric_defaults_to_zeros (st : Stats) (k : String) (n : Nat)
    (h : sGet st k = none) :
    getSeries st k n = List.replicate n 0 ∧ (getSeries st k n).length = n := by
  unfold getSeries
  rw [h]
  exact ⟨rfl, by simp⟩

/-- C9 witness: the valid-success metric missing from a parsed dataset
reads as three zeros. -/
theorem missing_metric_defaults_to_zeros_witness :
    getSeries [("success", [(5 : Int)])] "valid-success" 3 = List.replicate 3 0 ∧
    (getSeries [("success", [(5 : Int)])] "valid-success" 3).length = 3 :=
  missing_metric_defaults_to_zeros _ _ _ rfl

/-- C10: the two-token line "fails -3" is accepted by the parser and the
negative value -3 is appended to the fails series, so parsed series
entries are arbitrary integers, not guaranteed non-negative. -/
theorem parser_accepts_negative_values :
    parseStatsLines [("fails -3" : String)] = Except.ok [("fails", [(-3 : Int)])] ∧
    (-3 : Int) < 0 :=
  ⟨rfl, by decide⟩

/-- C2 counterexample: over arbitrary integer series the derived values
escape the bounds claimed — a negative success count drives the valid
ratio to -100, and a success exceeding its total drives the norefs rate
to 200. -/
theorem pct_bounds_counterexample :
    validPct [(-1 : Int)] [(2 : Int)] = [(-100 : ℚ)] ∧
    norefsRate [(200 : Int)] [(100 : Int)] = [(200 : ℚ)] ∧
    ¬ ((0 : ℚ) ≤ -100) ∧ ¬ ((200 : ℚ) ≤ 100) :=
  ⟨by simp [validPct]; norm_num, by simp [norefsRate], by norm_num, by norm_num⟩

/-- C6 counterexample: with positive finals 50 and 50.3 the ultra-zoom
branch clamps the bounds to (99, 50.45): the lower bound exceeds the
upper bound and neither final is contained. -/
theorem zoom_bounds_counterexample :
    zoomRange [(50 : ℚ), 50.3] = (99, 50.45) ∧ ¬ ((99 : ℚ) < 50.45) :=
  ⟨by norm_num [zoomRange, List.filter, max_def, min_def], by norm_num⟩

/-- C4 counterexample: the summary pattern requires the literal label
buffer_migrate_folio_norefs; the same line shape with label "foo" falls
through to the two-token rule, splits into four tokens, and is silently
skipped, producing no norefs series at all. -/
theorem norefs_label_counterexample :
    parseStatsLines [("foo: 97% success (970/1000)" : String)] = Except.ok [] ∧
    ([] : Stats) ≠ [("norefs_success_summary", [970]), ("norefs_total_summary", [1000])] :=
  ⟨rfl, by decide⟩

/-- C2 (amended): over non-negative series the valid-success ratio lies in
[0, 100], and over a norefs pair with success at most total pointwise so
does the norefs rate; at any index whose denominator is zero the derived
value is exactly 0; both functions are total by construction, so no
exception is possible.  (Over arbitrary integers, which the parser does
admit, the bounds fail; see the counterexample.) -/
theorem derived_pct_bounds (succ fails tot : List Int)
    (hs : ∀ x ∈ succ, 0 ≤ x) (hf : ∀ x ∈ fails, 0 ≤ x)
    (hst : ∀ p ∈ succ.zip tot, 0 ≤ p.1 ∧ p.1 ≤ p.2) :
    (∀ r ∈ validPct succ fails, 0 ≤ r ∧ r ≤ 100) ∧
    (∀ r ∈ norefsRate succ tot, 0 ≤ r ∧ r ≤ 100) ∧
    (∀ (i : Nat) (s f : Int), succ[i]? = some s → fails[i]? = some f → s + f = 0 →
      (validPct succ fails)[i]? = some 0) ∧
    (∀ (i : Nat) (s : Int), succ[i]? = some s → tot[i]? = some 0 →
      (norefsRate succ tot)[i]? = some 0) := by
  refine ⟨?_, ?_, ?_, ?_⟩
  · intro r hr
    unfold validPct at hr
    rcases List.mem_map.1 hr with ⟨p, hp, rfl⟩
    have hzs : 0 ≤ p.1 := hs p.1 (List.of_mem_zip hp).1
    have hzf : 0 ≤ p.2 := hf p.2 (List.of_mem_zip hp).2
    have hps : (0 : ℚ) ≤ (p.1 : ℚ) := by exact_mod_cast hzs
    have hpf : (0 : ℚ) ≤ (p.2 : ℚ) := by exact_mod_cast hzf
    by_cases h0 : p.1 + p.2 = 0
    · simp [h0]
    · simp only [h0, if_false]
      have hsum : (0 : ℚ) < (p.1 : ℚ) + (p.2 : ℚ) := by
        have h1 : 0 < p.1 + p.2 := lt_of_le_of_ne (by omega) (Ne.symm h0)
        exact_mod_cast h1
      have hdiv0 : (0 : ℚ) ≤ (p.1 : ℚ) / ((p.1 : ℚ) + (p.2 : ℚ)) :=
        div_nonneg hps (le_of_lt hsum)
      have hdiv1 : (p.1 : ℚ) / ((p.1 : ℚ) + (p.2 : ℚ)) ≤ 1 :=
        (div_le_one hsum).2 (by linarith)
      constructor
      · linarith
      · linarith
  · intro r hr
    unfold norefsRate at hr
    rcases List.mem_map.1 hr with ⟨p, hp, rfl⟩
    rcases hst p hp with ⟨hp1, hp2⟩
    by_cases hpos : 0 < p.2
    · simp only [hpos, if_true]
      have hq1 : (0 : ℚ) ≤ (p.1 : ℚ) := by exact_mod_cast hp1
      have hq2 : (p.1 : ℚ) ≤ (p.2 : ℚ) := by exact_mod_cast hp2
      have hqpos : (0 : ℚ) < (p.2 : ℚ) := by exact_mod_cast hpos
      have hdiv0 : (0 : ℚ) ≤ (p.1 : ℚ) / (p.2 : ℚ) := div_nonneg hq1 (le_of_lt hqpos)
      have hdiv1 : (p.1 : ℚ) / (p.2 : ℚ) ≤ 1 := (div_le_one hqpos).2 hq2
      constructor
      · linarith
      · linarith
    · simp only [hpos, if_false]
      norm_num
  · intro i s f h1 h2 h0
    unfold validPct
    rw [List.getElem?_map, zip_getElem?_some succ fails i s f h1 h2]
    simp [h0]
  · intro i s h1 h2
    unfold norefsRate
    rw [List.getElem?_map, zip_getElem?_some succ tot i s 0 h1 h2]
    simp

/-- C2 witness: the scenario series success = [5], fails = [3] derive the
ratio 62.5, which stays within the claimed bounds. -/
theorem derived_pct_bounds_witness :
    (125 / 2 : ℚ) ∈ validPct [(5 : Int)] [(3 : Int)] ∧
    (0 : ℚ) ≤ 125 / 2 ∧ (125 : ℚ) / 2 ≤ 100 := by
  have hmem : (125 / 2 : ℚ) ∈ validPct [(5 : Int)] [(3 : Int)] := by
    norm_num [validPct]
  have h := (derived_pct_bounds [(5 : Int)] [(3 : Int)] [(10 : Int)]
    (by decide) (by decide) (by decide)).1 (125 / 2) hmem
  exact ⟨hmem, h.1, h.2⟩

/-- C5: the source zoom heuristic computes exactly the axis ranges the
spec's wording describes, for every list of final ratio values. -/
theorem zoom_heuristic_matches_spec (finals : List ℚ) :
    zoomRange finals = zoomRangeSpec finals := by
  unfold zoomRange zoomRangeSpec
  cases h : finals.filter (fun v => 0 < v) with
  | nil => rfl
  | cons x xs =>
    by_cases hc : xs.foldl max x - xs.foldl min x < 0.5
    · simp only [hc, if_true]
      have he : ∀ a b : ℚ, a - b * 0.5 = a - b / 2 := by
        intro a b
        norm_num [mul_one_div]
      have he' : ∀ a b : ℚ, a + b * 0.5 = a + b / 2 := by
        intro a b
        norm_num [mul_one_div]
      rw [he, he']
    · simp only [hc, if_false]

/-- C6 (amended): whenever the final ratios are not all equal and all lie
within [99, 100] — the regime the ultra-zoom is designed for — the
computed axis range has its lower bound strictly below its upper bound
and contains every final ratio, in both the ultra-zoom branch and the
wide branch.  (Without that restriction the claim fails; see the
counterexample.) -/
theorem zoom_bounds_amended (finals : List ℚ) (hne : finals ≠ [])
    (hlo : ∀ f ∈ finals, 99 ≤ f) (hhi : ∀ f ∈ finals, f ≤ 100)
    (hdist : ∃ a ∈ finals, ∃ b ∈ finals, a ≠ b) :
    (zoomRange finals).1 < (zoomRange finals).2 ∧
    ∀ f ∈ finals, (zoomRange finals).1 ≤ f ∧ f ≤ (zoomRange finals).2 := by
  have hfilter : finals.filter (fun v => 0 < v) = finals := by
    rw [List.filter_eq_self]
    intro a ha
    simp only [decide_eq_true_eq]
    linarith [hlo a ha]
  cases finals with
  | nil => exact absurd rfl hne
  | cons x xs =>
    simp only [zoomRange, hfilter]
    have hm_le : ∀ y ∈ x :: xs, xs.foldl min x ≤ y := foldl_min_le_mem xs x
    have hM_ge : ∀ y ∈ x :: xs, y ≤ xs.foldl max x := mem_le_foldl_max xs x
    have h99 : 99 ≤ xs.foldl min x :=
      le_foldl_min 99 xs x (hlo x (List.mem_cons_self _ _))
        (fun y hy => hlo y (List.mem_cons_of_mem _ hy))
    have h100 : xs.foldl max x ≤ 100 :=
      foldl_max_le 100 xs x (hhi x (List.mem_cons_self _ _))
        (fun y hy => hhi y (List.mem_cons_of_mem _ hy))
    have hmM : xs.foldl min x < xs.foldl max x := by
      obtain ⟨a, ha, b, hb, hab⟩ := hdist
      rcases lt_or_gt_of_ne hab with h | h
      · have := hm_le a ha
        have := hM_ge b hb
        linarith
      · have := hm_le b hb
        have := hM_ge a ha
        linarith
    by_cases hc : xs.foldl max x - xs.foldl min x < 0.5
    · rw [if_pos hc]
      have hr0 : (0 : ℚ) ≤ (xs.foldl max x - xs.foldl min x) * 0.5 := by
        have h' : (0 : ℚ) ≤ xs.foldl max x - xs.foldl min x := by linarith
        exact mul_nonneg h' (by norm_num)
      have hlom : max 99 (xs.foldl min x - (xs.foldl max x - xs.foldl min x) * 0.5) ≤
          xs.foldl min x := max_le h99 (by linarith)
      have hhiM : xs.foldl max x ≤
          min 100 (xs.foldl max x + (xs.foldl max x - xs.foldl min x) * 0.5) :=
        le_min h100 (by linarith)
      constructor
      · simp only
        linarith
      · intro f hf
        have h1 := hm_le f hf
        have h2 := hM_ge f hf
        constructor
        · simp only
          linarith
        · simp only
          linarith
    · rw [if_neg hc]
      have hlom : max 95 (xs.foldl min x - 1) ≤ xs.foldl min x :=
        max_le (by linarith) (by linarith)
      constructor
      · simp only
        linarith
      · intro f hf
        have h1 := hm_le f hf
        have h2 := hhi f hf
        constructor
        · simp only
          exact max_le (by linarith [hlo f hf]) (by linarith)
        · simp only
          linarith

/-- C6 witness: finals 99.2 and 99.9 produce a well-ordered range. -/
theorem zoom_bounds_amended_witness :
    (zoomRange [(99.2 : ℚ), 99.9]).1 < (zoomRange [(99.2 : ℚ), 99.9]).2 :=
  (zoom_bounds_amended [(99.2 : ℚ), 99.9] (by simp)
    (by intro f hf; rcases List.mem_cons.1 hf with rfl | hf'; · norm_num
        · rcases List.mem_singleton.1 hf' with rfl; norm_num)
    (by intro f hf; rcases List.mem_cons.1 hf with rfl | hf'; · norm_num
        · rcases List.mem_singleton.1 hf' with rfl; norm_num)
    ⟨99.2, List.mem_cons_self _ _,
      99.9, List.mem_cons_of_mem _ (List.mem_cons_self _ _), by norm_num⟩).1

/-- C7: swapping the polarity flag on an unchanged finals mapping exactly
swaps best and worst, reverses the best-to-worst ranking order (the
middle list sorted[1:-1] itself is built identically for both
polarities), and on a non-empty mapping the best name under
higher-is-better carries a maximal final value while the best name under
lower-is-better carries a minimal one. -/
theorem polarity_inversion (fs : List (String × ℚ)) :
    bestOf .higherIsBetter fs = worstOf .lowerIsBetter fs ∧
    worstOf .higherIsBetter fs = bestOf .lowerIsBetter fs ∧
    rankOrder .higherIsBetter fs = (rankOrder .lowerIsBetter fs).reverse ∧
    (fs ≠ [] →
      (∃ p ∈ fs, bestOf .higherIsBetter fs = some p.1 ∧ ∀ q ∈ fs, q.2 ≤ p.2) ∧
      (∃ p ∈ fs, bestOf .lowerIsBetter fs = some p.1 ∧ ∀ q ∈ fs, p.2 ≤ q.2)) := by
  refine ⟨rfl, rfl, rfl, ?_⟩
  intro hne
  have hperm := sortFinals_perm fs
  have hneS : sortFinals fs ≠ [] := by
    intro h
    have hlen := hperm.length_eq
    rw [h] at hlen
    exact hne (List.length_eq_zero.1 hlen.symm)
  have hpairs := sortFinals_pairwise fs
  constructor
  · have hb := List.getLast?_eq_getLast (sortFinals fs) hneS
    refine ⟨(sortFinals fs).getLast hneS, hperm.mem_iff.1 (List.getLast_mem hneS), ?_, ?_⟩
    · simp only [bestOf, hb, Option.map_some']
    · intro q hq
      exact pairwise_le_getLast? (sortFinals fs) hpairs _ hb q (hperm.mem_iff.2 hq)
  · cases hS : sortFinals fs with
    | nil => exact absurd hS hneS
    | cons a t =>
      refine ⟨a, hperm.mem_iff.1 (by rw [hS]; exact List.mem_cons_self _ _), ?_, ?_⟩
      · simp only [bestOf, hS, List.head?_cons, Option.map_some']
      · intro q hq
        refine pairwise_head?_le (sortFinals fs) hpairs a ?_ q (hperm.mem_iff.2 hq)
        rw [hS]
        rfl

/-- C7 witness: with finals 1 and 2 the higher-is-better best equals the
lower-is-better worst, and a best dataset exists. -/
theorem polarity_inversion_witness :
    bestOf .higherIsBetter [("a", (1 : ℚ)), ("b", (2 : ℚ))] =
      worstOf .lowerIsBetter [("a", (1 : ℚ)), ("b", (2 : ℚ))] ∧
    bestOf .higherIsBetter [("a", (1 : ℚ)), ("b", (2 : ℚ))] ≠ none := by
  refine ⟨(polarity_inversion [("a", (1 : ℚ)), ("b", (2 : ℚ))]).1, ?_⟩
  obtain ⟨⟨p, hp, hbest, hmax⟩, h2⟩ :=
    (polarity_inversion [("a", (1 : ℚ)), ("b", (2 : ℚ))]).2.2.2 (by simp)
  rw [hbest]
  simp

/-- The exact summary-line shape with the literal label: the label and
colon, one space, the pct digit group, "% success", one space, and the
parenthesised success/total digit groups. -/
def mkNorefsLine (d1 d2 d3 : List Char) : List Char :=
  ("buffer_migrate_folio_norefs:").toList ++
    ' ' :: (d1 ++ (("% success").toList ++ ' ' :: '(' :: (d2 ++ '/' :: (d3 ++ [')']))))

/-- The summary regex matches the constructed line and captures the
success and total digit groups. -/
theorem matchNorefs_mkNorefsLine (d1 d2 d3 : List Char)
    (h1 : d1 ≠ []) (h1d : d1.all Char.isDigit = true)
    (h2 : d2 ≠ []) (h2d : d2.all Char.isDigit = true)
    (h3 : d3 ≠ []) (h3d : d3.all Char.isDigit = true) :
    matchNorefs (mkNorefsLine d1 d2 d3) = some (natFromDigits d2, natFromDigits d3) := by
  obtain ⟨c0, d1t, rfl⟩ : ∃ c t, d1 = c :: t := by
    cases d1 with
    | nil => exact absurd rfl h1
    | cons c t => exact ⟨c, t, rfl⟩
  have hc0 : c0.isDigit = true := by
    simp only [List.all_cons, Bool.and_eq_true] at h1d
    exact h1d.1
  have hdw1 : ((c0 :: d1t) ++ (("% success").toList ++ ' ' :: '(' :: (d2 ++ '/' :: (d3 ++ [')'])))).dropWhile pySpace
      = (c0 :: d1t) ++ (("% success").toList ++ ' ' :: '(' :: (d2 ++ '/' :: (d3 ++ [')']))) := by
    apply dropWhile_head_false
    intro c hc
    have hh : ((c0 :: d1t) ++ (("% success").toList ++ ' ' :: '(' :: (d2 ++ '/' :: (d3 ++ [')'])))).head? = some c0 := rfl
    rw [hh] at hc
    injection hc with hc'
    subst hc'
    exact pySpace_eq_false_of_isDigit c0 hc0
  have hdig1 : digits1 ((c0 :: d1t) ++ (("% success").toList ++ ' ' :: '(' :: (d2 ++ '/' :: (d3 ++ [')'])))) =
      some (c0 :: d1t, ("% success").toList ++ ' ' :: '(' :: (d2 ++ '/' :: (d3 ++ [')']))) := by
    apply digits1_append _ _ (by simp) h1d
    intro c hc
    have hh : (("% success").toList ++ ' ' :: '(' :: (d2 ++ '/' :: (d3 ++ [')']))).head? = some '%' := rfl
    rw [hh] at hc
    injection hc with hc'
    subst hc'
    decide
  have hdig2 : digits1 (d2 ++ '/' :: (d3 ++ [')'])) = some (d2, '/' :: (d3 ++ [')'])) := by
    apply digits1_append _ _ h2 h2d
    intro c hc
    injection hc with hc'
    subst hc'
    decide
  have hdig3 : digits1 (d3 ++ [')']) = some (d3, [')']) := by
    apply digits1_append _ _ h3 h3d
    intro c hc
    injection hc with hc'
    subst hc'
    decide
  unfold matchNorefs mkNorefsLine
  rw [dropLit_append]
  simp only [Option.bind_eq_bind, Option.some_bind]
  rw [show spaces1 (' ' :: ((c0 :: d1t) ++ (("% success").toList ++ ' ' :: '(' :: (d2 ++ '/' :: (d3 ++ [')'])))))
      = some (((c0 :: d1t) ++ (("% success").toList ++ ' ' :: '(' :: (d2 ++ '/' :: (d3 ++ [')'])))).dropWhile pySpace) from rfl]
  rw [hdw1]
  simp only [Option.some_bind]
  rw [hdig1]
  simp only [Option.some_bind]
  rw [dropLit_append]
  simp only [Option.some_bind]
  rw [show spaces1 (' ' :: '(' :: (d2 ++ '/' :: (d3 ++ [')'])))
      = some (('(' :: (d2 ++ '/' :: (d3 ++ [')']))).dropWhile pySpace) from rfl]
  rw [show (('(' :: (d2 ++ '/' :: (d3 ++ [')']))).dropWhile pySpace) = '(' :: (d2 ++ '/' :: (d3 ++ [')'])) from rfl]
  simp only [Option.some_bind]
  rw [show dropLit ('(' :: (d2 ++ '/' :: (d3 ++ [')']))) (("(").toList) = some (d2 ++ '/' :: (d3 ++ [')'])) from dropLit_append (("(").toList) _]
  simp only [Option.some_bind]
  rw [hdig2]
  simp only [Option.some_bind]
  rw [show dropLit ('/' :: (d3 ++ [')'])) (("/").toList) = some (d3 ++ [')']) from dropLit_append (("/").toList) _]
  simp only [Option.some_bind]
  rw [hdig3]
  simp only [Option.some_bind]
  rw [show dropLit ([')']) ((")").toList) = some [] from rfl]
  simp only [Option.some_bind]
  rfl

/-- str.strip leaves the constructed summary line unchanged: it starts
with the label letter b and ends with the closing parenthesis. -/
theorem pyStrip_mkNorefsLine (d1 d2 d3 : List Char) :
    pyStrip (mkNorefsLine d1 d2 d3) = mkNorefsLine d1 d2 d3 := by
  apply pyStrip_eq_self
  · intro c hc
    have hh : (mkNorefsLine d1 d2 d3).head? = some 'b' := rfl
    rw [hh] at hc
    injection hc with hc'
    subst hc'
    decide
  · intro c hc
    have hl : (mkNorefsLine d1 d2 d3).getLast? = some ')' := by
      unfold mkNorefsLine
      rw [getLast?_append_right' _ _ (by simp)]
      rw [getLast?_cons_right _ _ (by simp)]
      rw [getLast?_append_right' _ _ (by simp)]
      rw [getLast?_append_right' _ _ (by simp)]
      rw [getLast?_cons_right _ _ (by simp)]
      rw [getLast?_cons_right _ _ (by simp)]
      rw [getLast?_append_right' _ _ (by simp)]
      rw [getLast?_cons_right _ _ (by simp)]
      rw [List.getLast?_concat]
    rw [hl] at hc
    injection hc with hc'
    subst hc'
    decide

/-- C4 (amended): the summary pattern requires the literal label
buffer_migrate_folio_norefs.  For every line of the shape
"buffer_migrate_folio_norefs: <pct>% success (<success>/<total>)" the
parser appends the parsed success integer to norefs_success_summary and
the parsed total integer to norefs_total_summary, discarding the
percentage digit group; and the scenario rate 970/1000 recomputes to
exactly 97. -/
theorem norefs_summary_line (st : Stats) (d1 d2 d3 : List Char)
    (h1 : d1 ≠ [] ∧ d1.all Char.isDigit = true)
    (h2 : d2 ≠ [] ∧ d2.all Char.isDigit = true)
    (h3 : d3 ≠ [] ∧ d3.all Char.isDigit = true) :
    parseLine st (String.mk (mkNorefsLine d1 d2 d3)) =
      Except.ok (appendS (appendS st "norefs_success_summary" (natFromDigits d2 : Int))
        "norefs_total_summary" (natFromDigits d3 : Int)) ∧
    norefsRate [970] [1000] = [97] := by
  constructor
  · unfold parseLine
    have htl : (String.mk (mkNorefsLine d1 d2 d3)).toList = mkNorefsLine d1 d2 d3 := rfl
    rw [htl, pyStrip_mkNorefsLine]
    have hemp : (mkNorefsLine d1 d2 d3).isEmpty = false := rfl
    have hhd : (mkNorefsLine d1 d2 d3).head? = some 'b' := rfl
    simp only [hemp, hhd, Bool.false_eq_true, if_false,
      matchNorefs_mkNorefsLine d1 d2 d3 h1.1 h1.2 h2.1 h2.2 h3.1 h3.2]
    simp
  · simp [norefsRate]
    norm_num

/-- C4 witness: the scenario line parses to the two norefs series and the
derived rate is exactly 97. -/
theorem norefs_summary_line_witness :
    parseLine [] ("buffer_migrate_folio_norefs: 97% success (970/1000)" : String) =
      Except.ok [("norefs_success_summary", [(970 : Int)]), ("norefs_total_summary", [(1000 : Int)])] ∧
    norefsRate [970] [1000] = [97] := by
  have h := norefs_summary_line [] (("97").toList) (("970").toList) (("1000").toList)
    (by decide) (by decide) (by decide)
  exact h
end MigrationStats
